import Mathlib

/-!
# Branch-manager verification

A shallow embedding of `src/lib/branch-manager.js`: utilities that inspect a
git repository's branch topology and compute a cleanup plan.  Every function
of the module shells out to `git` via `execSync` and catches all errors; we
model the outcome of each external command as a field of a `GitState` record
(`none` standing for a command that exited nonzero, i.e. a thrown exception),
and translate each JavaScript function into a Lean function over that record.

JavaScript string primitives (`split`, `trim`, `join`, `includes`) are
embedded as structurally recursive functions on `List Char` with the same
semantics, so that all definitions evaluate by `decide`/`rfl`.
-/

namespace BranchManager

/-- JS `String.prototype.trim` on a character list: drop whitespace from both
ends. -/
def jsTrimList (cs : List Char) : List Char :=
  ((cs.dropWhile Char.isWhitespace).reverse.dropWhile Char.isWhitespace).reverse

/-- JS `String.prototype.trim`. -/
def jsTrim (s : String) : String :=
  ⟨jsTrimList s.data⟩

/-- JS `String.prototype.split(sep)` for a one-character separator, on
character lists.  `split` of the empty string is `[[]]`, and a trailing
separator yields a trailing empty group, exactly as in JavaScript. -/
def splitCharList (sep : Char) : List Char → List (List Char)
  | [] => [[]]
  | c :: cs =>
    match splitCharList sep cs with
    | [] => [[]]
    | g :: gs => if c = sep then [] :: g :: gs else (c :: g) :: gs

/-- JS `String.prototype.split(sep)` for a one-character separator. -/
def jsSplitChar (sep : Char) (s : String) : List String :=
  (splitCharList sep s.data).map fun g => ⟨g⟩

/-- JS `Array.prototype.join(sep)` for a one-character separator, on
character lists. -/
def joinSepList (sep : Char) : List (List Char) → List Char
  | [] => []
  | [g] => g
  | g :: gs => g ++ sep :: joinSepList sep gs

/-- JS `Array.prototype.join("/")` on strings. -/
def joinSlash (l : List String) : String :=
  ⟨joinSepList '/' (l.map String.data)⟩

/-- Join a list of lines with newline characters. -/
def joinLines (l : List String) : String :=
  ⟨joinSepList '\n' (l.map String.data)⟩

/-- Occurrence of `pat` as a contiguous run inside a character list. -/
def containsSubList (pat : List Char) : List Char → Bool
  | [] => pat.isEmpty
  | c :: cs => pat.isPrefixOf (c :: cs) || containsSubList pat cs

/-- JS `String.prototype.includes`: substring containment. -/
def containsSub (hay pat : String) : Bool :=
  containsSubList pat.data hay.data

/-- Outputs of the git commands the module runs, for one repository state.
A field is `none` when the command exits nonzero, which `execSync` surfaces
as a thrown exception; `some out` is the captured standard output.
`branchMergedOut b` is the output of `git branch --merged b --format=...`,
and `pushDeleteErr remote branch` is `some message` when
`git push remote --delete branch` fails. -/
structure GitState where
  revParseOk : Bool
  symbolicRefOut : Option String
  branchAllOut : Option String
  showCurrentOut : Option String
  branchLocalOut : Option String
  branchRemoteOut : Option String
  branchMergedOut : String → Option String
  pushDeleteErr : String → String → Option String

/-- The pattern of the regular expression `/refs\/remotes\/origin\/(.+)/` in
`getDefaultBranch`. -/
def originPat : List Char :=
  "refs/remotes/origin/".data

/-- Matching of `/refs\/remotes\/origin\/(.+)/`: at the first position where
the literal pattern occurs followed by at least one non-newline character,
capture the run of non-newline characters after it (`.+` is greedy and `.`
does not match a newline); otherwise advance one character, as a regex
engine does. -/
def matchOriginHead : List Char → Option (List Char)
  | [] => none
  | c :: cs =>
    if originPat.isPrefixOf (c :: cs) then
      let cap := ((c :: cs).drop originPat.length).takeWhile (· ≠ '\n')
      if cap.isEmpty then matchOriginHead cs else some cap
    else matchOriginHead cs

/-- `isGitRepo`: `git rev-parse --git-dir` succeeds. -/
def isGitRepo (s : GitState) : Bool :=
  s.revParseOk

/-- Fallback of `getDefaultBranch`: run `git branch -a` and test whether the
raw output text contains `"main"`, then `"master"`, as substrings
(`branches.includes('main')`); default to `"main"`. -/
def defaultBranchFallback (s : GitState) : String :=
  match s.branchAllOut with
  | some branches =>
    if containsSub branches "main" then "main"
    else if containsSub branches "master" then "master"
    else "main"
  | none => "main"

/-- `getDefaultBranch`: trim the output of
`git symbolic-ref refs/remotes/origin/HEAD` and match it against
`/refs\/remotes\/origin\/(.+)/`; on a match return the capture, otherwise
fall through to `defaultBranchFallback`. -/
def getDefaultBranch (s : GitState) : String :=
  match s.symbolicRefOut with
  | some out =>
    match matchOriginHead (jsTrim out).data with
    | some cap => ⟨cap⟩
    | none => defaultBranchFallback s
  | none => defaultBranchFallback s

/-- `getCurrentBranch`: the trimmed output of `git branch --show-current`,
or `null` when the command fails. -/
def getCurrentBranch (s : GitState) : Option String :=
  s.showCurrentOut.map jsTrim

/-- `listLocalBranches`: split the output of
`git branch --format="%(refname:short)"` on newlines, trim each entry and
drop empty ones; `[]` when the command fails. -/
def listLocalBranches (s : GitState) : List String :=
  match s.branchLocalOut with
  | some out => ((jsSplitChar '\n' out).map jsTrim).filter fun b => !(b == "")
  | none => []

/-- A parsed remote-tracking ref, as built by `listRemoteBranches`. -/
structure RemoteRef where
  remote : String
  branch : String
  fullName : String
deriving DecidableEq

/-- The parsing step of `listRemoteBranches`: `fullName.split('/')`, the
remote is `parts[0]` and the branch is `parts.slice(1).join('/')`. -/
def parseRemoteLine (fullName : String) : RemoteRef :=
  let parts := jsSplitChar '/' fullName
  { remote := parts.headD ""
    branch := joinSlash (parts.drop 1)
    fullName := fullName }

/-- `listRemoteBranches`: split the output of
`git branch -r --format="%(refname:short)"` on newlines, trim, keep the
nonempty entries that do not contain `"HEAD"` as a substring
(`!b.includes('HEAD')`), and parse each; `[]` when the command fails. -/
def listRemoteBranches (s : GitState) : List RemoteRef :=
  match s.branchRemoteOut with
  | some out =>
    (((jsSplitChar '\n' out).map jsTrim).filter
      (fun b => !(b == "") && !(containsSub b "HEAD"))).map parseRemoteLine
  | none => []

/-- `isBranchMerged`: resolve the default branch, list
`git branch --merged <default>` and test exact membership of `branch` among
the split lines (`output.split('\n').includes(branch)`); `false` when the
command fails. -/
def isBranchMerged (branch : String) (s : GitState) : Bool :=
  match s.branchMergedOut (getDefaultBranch s) with
  | some out => (jsSplitChar '\n' out).contains branch
  | none => false

/-- The structured result of a deletion: `{success: boolean, error?: string}`. -/
structure DeleteOutcome where
  success : Bool
  error : Option String
deriving DecidableEq

/-- `deleteRemoteBranch`: run `git push <remote> --delete <branch>` and
report the outcome; never throws. -/
def deleteRemoteBranch (remote branch : String) (s : GitState) : DeleteOutcome :=
  match s.pushDeleteErr remote branch with
  | none => { success := true, error := none }
  | some e => { success := false, error := some e }

/-- The list the module builds as
`new Set([defaultBranch, currentBranch, ...protect].filter(Boolean))`:
the default branch, the current branch and the extra protected names, with
`null` and empty-string entries (the falsy values) removed.  The JS `Set` is
only queried through `has`, so a list with `contains` is a faithful model. -/
def protectedBranchesOf (s : GitState) (protect : List String) : List String :=
  (([some (getDefaultBranch s), getCurrentBranch s] ++ protect.map some).filterMap id).filter
    fun b => !(b == "")

/-- The value returned by `getBranchesToClean`: `{local, remote}`, named
after the local variables `localToClean` and `remoteToClean`. -/
structure CleanupResult where
  localToClean : List String
  remoteToClean : List RemoteRef
deriving DecidableEq

/-- `getBranchesToClean`: build the protected set, filter it out of the
local branches, and when `includeRemote` filter the remote refs whose
branch name is protected. -/
def getBranchesToClean (s : GitState) (protect : List String)
    (includeRemote : Bool) : CleanupResult :=
  let protectedBranches := protectedBranchesOf s protect
  let localToClean := (listLocalBranches s).filter
    fun branch => !(protectedBranches.contains branch)
  let remoteToClean := if includeRemote then
      (listRemoteBranches s).filter fun r => !(protectedBranches.contains r.branch)
    else []
  { localToClean := localToClean, remoteToClean := remoteToClean }

/-! ## A semantic repository model

The module shells out to `git`; to state claims that speak about the
repository itself (detached head, merged branches, the effect of a
deletion) we model a repository abstractly and render the outputs git
produces for it.  `reachable a b` means the tip commit of branch `a` is
reachable from (an ancestor of) the tip of branch `b`; `resolvable b` means
the revision `b` resolves, which `git branch --merged b` requires. -/

/-- An abstract git repository: the branch origin's HEAD designates (if
any), the checked-out branch (`none` = detached HEAD), the local branches
in listing order, the remote-tracking refs in short form, revision
resolvability and tip reachability. -/
structure Repo where
  originHead : Option String
  head : Option String
  localBranches : List String
  remoteRefs : List String
  resolvable : String → Bool
  reachable : String → String → Bool

/-- A usable branch name: nonempty and free of whitespace characters, as
git enforces for refnames (`git check-ref-format` rejects space and every
ASCII control character). -/
def validName (b : String) : Prop :=
  b ≠ "" ∧ ∀ c ∈ b.data, ¬ c.isWhitespace

instance (b : String) : Decidable (validName b) := by
  unfold validName; infer_instance

/-- Render the command outputs git produces for an abstract repository:
`git symbolic-ref` prints the full ref of origin's HEAD, `git branch -a`
lists local branches (the checked-out one starred) then
`remotes/`-prefixed remote refs, `git branch --show-current` prints the
checked-out branch or nothing when detached, the `--format="%(refname:short)"`
listings print one name per line with a trailing newline, and
`git branch --merged b` lists the local branches whose tip is reachable
from `b`'s tip, failing when `b` does not resolve. -/
def observe (r : Repo) : GitState :=
  { revParseOk := true
    symbolicRefOut := r.originHead.map fun b => "refs/remotes/origin/" ++ b ++ "\n"
    branchAllOut := some (joinLines
      ((r.localBranches.map fun b =>
          (if r.head = some b then "* " else "  ") ++ b) ++
        (r.remoteRefs.map fun q => "  remotes/" ++ q) ++ [""]))
    showCurrentOut := some (match r.head with
      | some b => b ++ "\n"
      | none => "")
    branchLocalOut := some (joinLines (r.localBranches ++ [""]))
    branchRemoteOut := some (joinLines (r.remoteRefs ++ [""]))
    branchMergedOut := fun b =>
      if r.resolvable b then
        some (joinLines ((r.localBranches.filter fun x => r.reachable x b) ++ [""]))
      else none
    pushDeleteErr := fun _ _ => none }

/-- The effect of `git branch -d`/`-D` on a repository, per the git
documentation and §4.3 of the design: the branch must exist and must not be
the checked-out one; without `force` the deletion is refused unless the
branch tip is an ancestor of the current branch's tip; on success the ref
is removed. -/
def gitBranchDelete (r : Repo) (branch : String) (force : Bool) :
    Except String Repo :=
  if !(r.localBranches.contains branch) then
    .error "error: branch not found"
  else if r.head == some branch then
    .error "error: cannot delete checked out branch"
  else if !force && !(match r.head with
      | some h => r.reachable branch h
      | none => false) then
    .error "error: the branch is not fully merged"
  else
    .ok { r with localBranches := r.localBranches.erase branch }

/-- `deleteLocalBranch`: run `git branch -d "<branch>"` (`-D` when forced)
and report `{success: true}` or `{success: false, error}`; the repository
is unchanged when the command fails. -/
def deleteLocalBranch (branch : String) (r : Repo) (force : Bool) :
    DeleteOutcome × Repo :=
  match gitBranchDelete r branch force with
  | .ok r' => ({ success := true, error := none }, r')
  | .error e => ({ success := false, error := some e }, r)

/-- The state of a path that is not a git repository: every git command
exits nonzero. -/
def nonRepoState : GitState :=
  { revParseOk := false
    symbolicRefOut := none
    branchAllOut := none
    showCurrentOut := none
    branchLocalOut := none
    branchRemoteOut := none
    branchMergedOut := fun _ => none
    pushDeleteErr := fun _ b => some ("failed to delete " ++ b) }

/-! ## Specification-side definitions

These definitions follow the words of the specification (or of an amended
claim) rather than the code; each is compared with the corresponding
code-derived definition in the theorems below. -/

/-- A branch name as it appears on one line of `git branch -a`: strip the
`"* "` current-branch marker, and for a remote-tracking entry strip the
`"remotes/<remote>/"` prefix. -/
def listedBranchName (line : String) : String :=
  let l : String :=
    if ("* ".data).isPrefixOf line.data then ⟨line.data.drop 2⟩ else line
  if ("remotes/".data).isPrefixOf l.data then
    joinSlash ((jsSplitChar '/' ⟨l.data.drop "remotes/".data.length⟩).drop 1)
  else l

/-- The parsed list of local and remote branch names carried by a
`git branch -a` listing. -/
def parseBranchListing (txt : String) : List String :=
  (((jsSplitChar '\n' txt).map jsTrim).filter (fun b => !(b == ""))).map
    listedBranchName

/-- The claim's reading of `getDefaultBranch`: step (b) matches on exact
branch name against the parsed branch list, preferring `"main"`, else
`"master"`; steps (a) and (c) as in the code. -/
def defaultBranchClaimed (s : GitState) : String :=
  let stepB : String :=
    match s.branchAllOut with
    | some txt =>
      let names := parseBranchListing txt
      if names.contains "main" then "main"
      else if names.contains "master" then "master"
      else "main"
    | none => "main"
  match s.symbolicRefOut with
  | some out =>
    match matchOriginHead (jsTrim out).data with
    | some cap => ⟨cap⟩
    | none => stepB
  | none => stepB

/-- The amended claim's reading of `getDefaultBranch`: step (b) tests
whether the raw `git branch -a` listing text contains `"main"`, then
`"master"`, as a substring. -/
def defaultBranchAmended (s : GitState) : String :=
  let stepB : String :=
    match s.branchAllOut with
    | some txt =>
      if containsSub txt "main" then "main"
      else if containsSub txt "master" then "master"
      else "main"
    | none => "main"
  match s.symbolicRefOut with
  | some out =>
    match matchOriginHead (jsTrim out).data with
    | some cap => ⟨cap⟩
    | none => stepB
  | none => stepB

/-- The claim's reading of `listRemoteBranches`: exclude only symbolic HEAD
pointers, i.e. entries whose parsed branch name is exactly `"HEAD"`. -/
def listRemoteBranchesClaimed (s : GitState) : List RemoteRef :=
  match s.branchRemoteOut with
  | some out =>
    ((((jsSplitChar '\n' out).map jsTrim).filter
      (fun b => !(b == ""))).map parseRemoteLine).filter
      (fun r => !(r.branch == "HEAD"))
  | none => []

/-! ## Concrete states used by counterexamples and witnesses -/

/-- A repository whose `git branch -a` listing carries a branch named
`"mainline"` and a branch named `"master"`, with origin's HEAD
unresolvable. -/
def substrState : GitState :=
  { nonRepoState with
    revParseOk := true
    branchAllOut := some "  mainline\n  master\n" }

/-- A repository in detached-head state: `git branch --show-current`
succeeds and prints nothing. -/
def detachedRepo : Repo :=
  { originHead := none
    head := none
    localBranches := ["main"]
    remoteRefs := []
    resolvable := fun b => b == "main"
    reachable := fun x y => x == "main" && y == "main" }

/-- A repository checked out on an unmerged branch `wip`, with a further
branch `dev` and only `main` merged into `main`. -/
def wipRepo : Repo :=
  { originHead := none
    head := some "wip"
    localBranches := ["main", "wip", "dev"]
    remoteRefs := []
    resolvable := fun b => b == "main"
    reachable := fun x y => x == "main" && y == "main" }

/-- A repository whose remote listing carries a branch named `HEAD-fix`. -/
def headFixState : GitState :=
  { nonRepoState with
    revParseOk := true
    branchRemoteOut := some "origin/HEAD-fix\norigin/feature/x\n" }

/-! ## Helper lemmas: splitting and joining lines -/

theorem splitCharList_ne_nil (sep : Char) (cs : List Char) :
    splitCharList sep cs ≠ [] := by
  induction cs with
  | nil => simp [splitCharList]
  | cons c cs ih =>
    simp only [splitCharList]
    cases h : splitCharList sep cs with
    | nil => exact absurd h ih
    | cons g gs =>
      by_cases hc : c = sep <;> simp [hc]

theorem splitCharList_sepFree (sep : Char) (cs : List Char) (h : sep ∉ cs) :
    splitCharList sep cs = [cs] := by
  induction cs with
  | nil => rfl
  | cons c cs ih =>
    simp only [List.mem_cons, not_or] at h
    simp only [splitCharList, ih h.2, if_neg (fun hc : c = sep => h.1 hc.symm)]

theorem splitCharList_append_sep (sep : Char) (a b : List Char) (h : sep ∉ a) :
    splitCharList sep (a ++ sep :: b) = a :: splitCharList sep b := by
  induction a with
  | nil =>
    simp only [List.nil_append, splitCharList]
    cases hb : splitCharList sep b with
    | nil => exact absurd hb (splitCharList_ne_nil sep b)
    | cons g gs => simp
  | cons c a ih =>
    simp only [List.mem_cons, not_or] at h
    simp only [List.cons_append, splitCharList, List.append_eq, ih h.2,
      if_neg (fun hc : c = sep => h.1 hc.symm)]

theorem splitCharList_joinSepList (sep : Char) (L : List (List Char))
    (hne : L ≠ []) (h : ∀ g ∈ L, sep ∉ g) :
    splitCharList sep (joinSepList sep L) = L := by
  induction L with
  | nil => exact absurd rfl hne
  | cons g gs ih =>
    cases gs with
    | nil =>
      simpa [joinSepList] using splitCharList_sepFree sep g (h g (by simp))
    | cons g' gs' =>
      have hg : sep ∉ g := h g (by simp)
      have hrest : ∀ x ∈ g' :: gs', sep ∉ x := fun x hx => h x (by simp [hx])
      calc splitCharList sep (joinSepList sep (g :: g' :: gs'))
          = splitCharList sep (g ++ sep :: joinSepList sep (g' :: gs')) := rfl
        _ = g :: splitCharList sep (joinSepList sep (g' :: gs')) :=
            splitCharList_append_sep sep g _ hg
        _ = g :: g' :: gs' := by rw [ih (by simp) hrest]

theorem joinSepList_splitCharList (sep : Char) (cs : List Char) :
    joinSepList sep (splitCharList sep cs) = cs := by
  induction cs with
  | nil => rfl
  | cons c cs ih =>
    simp only [splitCharList]
    cases h : splitCharList sep cs with
    | nil => exact absurd h (splitCharList_ne_nil sep cs)
    | cons g gs =>
      rw [h] at ih
      by_cases hc : c = sep
      · subst hc
        simpa [joinSepList] using ih
      · simp only [if_neg hc]
        cases gs with
        | nil => simpa [joinSepList] using ih
        | cons g' gs' =>
          simpa [joinSepList, List.cons_append] using ih

theorem jsSplitChar_joinLines (L : List String) (hne : L ≠ [])
    (h : ∀ s ∈ L, '\n' ∉ s.data) : jsSplitChar '\n' (joinLines L) = L := by
  unfold jsSplitChar joinLines
  rw [splitCharList_joinSepList '\n' (L.map String.data)
    (by simpa using hne) (by simpa using h)]
  rw [List.map_map]
  have hmk : ((fun g => (⟨g⟩ : String)) ∘ String.data) = id := funext fun s => rfl
  rw [hmk, List.map_id]

/-! ## Helper lemmas: trimming valid names -/

theorem dropWhile_ws_eq_self (cs : List Char) (h : ∀ c ∈ cs, ¬ c.isWhitespace) :
    cs.dropWhile Char.isWhitespace = cs := by
  cases cs with
  | nil => rfl
  | cons c rest =>
    have : ¬ c.isWhitespace = true := h c (by simp)
    simp [List.dropWhile_cons, this]

theorem jsTrim_of_valid (b : String) (h : validName b) : jsTrim b = b := by
  obtain ⟨-, hws⟩ := h
  have h1 : b.data.dropWhile Char.isWhitespace = b.data :=
    dropWhile_ws_eq_self _ hws
  have h2 : b.data.reverse.dropWhile Char.isWhitespace = b.data.reverse :=
    dropWhile_ws_eq_self _ (by simpa using hws)
  show (⟨jsTrimList b.data⟩ : String) = b
  unfold jsTrimList
  rw [h1, h2, List.reverse_reverse]

theorem data_ne_nil_of_ne_empty (b : String) (h : b ≠ "") : b.data ≠ [] := by
  intro hd
  apply h
  have hb : b = ⟨b.data⟩ := rfl
  rw [hb, hd]

theorem jsTrim_append_newline_of_valid (b : String) (h : validName b) :
    jsTrim (b ++ "\n") = b := by
  obtain ⟨hne, hws⟩ := h
  have hdata : (b ++ "\n").data = b.data ++ ['\n'] := rfl
  show (⟨jsTrimList (b ++ "\n").data⟩ : String) = b
  rw [hdata]
  unfold jsTrimList
  have h1 : (b.data ++ ['\n']).dropWhile Char.isWhitespace = b.data ++ ['\n'] := by
    cases hcs : b.data with
    | nil => exact absurd hcs (data_ne_nil_of_ne_empty b hne)
    | cons c rest =>
      have : ¬ c.isWhitespace = true := hws c (by simp [hcs])
      simp [List.dropWhile_cons, this]
  rw [h1]
  have h2 : (b.data ++ ['\n']).reverse = '\n' :: b.data.reverse := by
    simp
  rw [h2]
  have h3 : ('\n' :: b.data.reverse).dropWhile Char.isWhitespace =
      b.data.reverse.dropWhile Char.isWhitespace := by
    simp [List.dropWhile_cons]
  rw [h3, dropWhile_ws_eq_self _ (by simpa using hws), List.reverse_reverse]

/-! ## Helper lemmas: the origin-HEAD regular expression -/

theorem matchOriginHead_ne_nil (cs : List Char) (cap : List Char)
    (h : matchOriginHead cs = some cap) : cap ≠ [] := by
  induction cs with
  | nil => simp [matchOriginHead] at h
  | cons c cs ih =>
    simp only [matchOriginHead] at h
    split at h
    · split at h
      · exact ih h
      · rename_i he
        injection h with h'
        subst h'
        simpa [List.isEmpty_iff] using he
    · exact ih h

theorem defaultBranchFallback_ne_empty (s : GitState) :
    defaultBranchFallback s ≠ "" := by
  unfold defaultBranchFallback
  split
  · split
    · simp
    · split <;> simp
  · simp

theorem getDefaultBranch_ne_empty (s : GitState) : getDefaultBranch s ≠ "" := by
  unfold getDefaultBranch
  split
  · rename_i out heq
    split
    · rename_i cap hcap
      have hne := matchOriginHead_ne_nil _ cap hcap
      intro hcontra
      exact hne (show cap = [] from congrArg String.data hcontra)
    · exact defaultBranchFallback_ne_empty s
  · exact defaultBranchFallback_ne_empty s

/-! ## Helper lemmas: parsing the rendered listings -/

theorem splitTrimFilter (l : List String) (h : ∀ b ∈ l, validName b) :
    ((jsSplitChar '\n' (joinLines (l ++ [""]))).map jsTrim).filter
      (fun b => !(b == "")) = l := by
  rw [jsSplitChar_joinLines (l ++ [""]) (by simp) ?hnl]
  case hnl =>
    intro s hs
    rcases List.mem_append.1 hs with h1 | h1
    · intro hmem
      exact (h s h1).2 '\n' hmem (by decide)
    · simp only [List.mem_singleton] at h1
      subst h1
      simp
  have hmap : ∀ s ∈ l ++ [""], jsTrim s = id s := by
    intro s hs
    rcases List.mem_append.1 hs with h1 | h1
    · exact jsTrim_of_valid s (h s h1)
    · simp only [List.mem_singleton] at h1
      subst h1
      rfl
  rw [List.map_congr_left hmap, List.map_id, List.filter_append]
  have h1 : l.filter (fun b => !(b == "")) = l := by
    rw [List.filter_eq_self]
    intro b hb
    simpa using (h b hb).1
  have h2 : List.filter (fun b => !(b == "")) [""] = [] := by decide
  rw [h1, h2, List.append_nil]

theorem listLocalBranches_observe (r : Repo)
    (h : ∀ b ∈ r.localBranches, validName b) :
    listLocalBranches (observe r) = r.localBranches := by
  show ((jsSplitChar '\n' (joinLines (r.localBranches ++ [""]))).map jsTrim).filter
      (fun b => !(b == "")) = r.localBranches
  exact splitTrimFilter r.localBranches h

theorem mem_protectedBranchesOf (s : GitState) (protect : List String)
    (x : String) :
    x ∈ protectedBranchesOf s protect ↔
      x ≠ "" ∧ (x = getDefaultBranch s ∨ getCurrentBranch s = some x ∨
        x ∈ protect) := by
  unfold protectedBranchesOf
  constructor
  · intro hmem
    obtain ⟨hmem, hp⟩ := List.mem_filter.1 hmem
    refine ⟨by simpa using hp, ?_⟩
    obtain ⟨a, ha, hax⟩ := List.mem_filterMap.1 hmem
    simp only [id_eq] at hax
    subst hax
    rcases List.mem_append.1 ha with h1 | h1
    · rcases List.mem_cons.1 h1 with h2 | h2
      · exact Or.inl (Option.some.inj h2)
      · rcases List.mem_cons.1 h2 with h3 | h3
        · exact Or.inr (Or.inl h3.symm)
        · exact absurd h3 (List.not_mem_nil _)
    · obtain ⟨a, ha2, hax2⟩ := List.mem_map.1 h1
      exact Or.inr (Or.inr (Option.some.inj hax2 ▸ ha2))
  · rintro ⟨hne, hcase⟩
    refine List.mem_filter.2 ⟨List.mem_filterMap.2 ⟨some x, ?_, rfl⟩,
      by simpa using hne⟩
    rcases hcase with h1 | h1 | h1
    · exact List.mem_append_left _ (by rw [h1]; exact List.mem_cons_self _ _)
    · exact List.mem_append_left _
        (List.mem_cons_of_mem _ (by rw [h1]; exact List.mem_cons_self _ _))
    · exact List.mem_append_right _ (List.mem_map.2 ⟨x, h1, rfl⟩)

theorem isBranchMerged_observe (r : Repo) (x : String)
    (hv : ∀ b ∈ r.localBranches, validName b)
    (hres : r.resolvable (getDefaultBranch (observe r)) = true)
    (hx : x ≠ "") :
    isBranchMerged x (observe r) = true ↔
      x ∈ r.localBranches ∧
        r.reachable x (getDefaultBranch (observe r)) = true := by
  unfold isBranchMerged
  have hout : (observe r).branchMergedOut (getDefaultBranch (observe r)) =
      some (joinLines ((r.localBranches.filter
        (fun b => r.reachable b (getDefaultBranch (observe r)))) ++ [""])) := by
    show (if r.resolvable (getDefaultBranch (observe r)) then _ else none) = _
    rw [if_pos hres]
  have hlines : jsSplitChar '\n' (joinLines ((r.localBranches.filter
      (fun b => r.reachable b (getDefaultBranch (observe r)))) ++ [""])) =
      (r.localBranches.filter
        (fun b => r.reachable b (getDefaultBranch (observe r)))) ++ [""] := by
    apply jsSplitChar_joinLines _ (by simp)
    intro s hs
    rcases List.mem_append.1 hs with h1 | h1
    · intro hmem
      exact (hv s (List.mem_of_mem_filter h1)).2 '\n' hmem (by decide)
    · simp only [List.mem_singleton] at h1
      subst h1
      simp
  rw [hout]
  show (jsSplitChar '\n' (joinLines ((r.localBranches.filter
      (fun b => r.reachable b (getDefaultBranch (observe r)))) ++ [""]))).contains
    x = true ↔ _
  rw [hlines]
  constructor
  · intro hc
    have hmem : x ∈ (r.localBranches.filter
        (fun b => r.reachable b (getDefaultBranch (observe r)))) ++ [""] := by
      simpa using hc
    rcases List.mem_append.1 hmem with h1 | h1
    · exact ⟨(List.mem_filter.1 h1).1, (List.mem_filter.1 h1).2⟩
    · simp only [List.mem_singleton] at h1
      exact absurd h1 hx
  · intro hmm
    obtain ⟨h1, h2⟩ := hmm
    have hmem : x ∈ (r.localBranches.filter
        (fun b => r.reachable b (getDefaultBranch (observe r)))) ++ [""] :=
      List.mem_append_left _ (List.mem_filter.2 ⟨h1, h2⟩)
    simpa using hmem

/-! ## Claim C1: default-branch resolution -/

/-- C1 (counterexample): with origin's HEAD unresolvable and a `git branch
-a` listing carrying branches `mainline` and `master` but no branch whose
exact name is `main`, `getDefaultBranch` returns `"main"` — the raw listing
text contains `"main"` as a substring of `"mainline"` — while the claimed
exact-name resolution prefers the existing `"master"`.  Step (b) is
substring containment of the raw listing, not exact-name matching. -/
theorem getDefaultBranch_exact_counterexample :
    getDefaultBranch substrState = "main" ∧
      defaultBranchClaimed substrState = "master" ∧
      "main" ∉ parseBranchListing "  mainline\n  master\n" ∧
      "mainline" ∈ parseBranchListing "  mainline\n  master\n" := by
  exact ⟨by decide, by decide, by decide, by decide⟩

/-- C1 (amended): `defaultBranch` resolves in this order: (a) the branch
the remote `origin` designates as its HEAD, if resolvable; (b) otherwise,
`"main"` if the raw `git branch -a` listing text contains `"main"` as a
substring, else `"master"` if it contains `"master"` as a substring (so a
branch named `"mainline"` is matched as `"main"`); (c) otherwise the
literal `"main"`. -/
theorem getDefaultBranch_substring_resolution (s : GitState) :
    getDefaultBranch s = defaultBranchAmended s := by
  cases s with
  | mk rp sr ba sc bl br bm pd =>
    cases sr with
    | none => cases ba <;> rfl
    | some out =>
      cases matchOriginHead (jsTrim out).data with
      | none => cases ba <;> rfl
      | some cap => rfl

/-! ## Claim C2: current branch -/

/-- C2 (counterexample): in a detached-head repository, `git branch
--show-current` succeeds with empty output and `getCurrentBranch` returns
the empty string, not `null`. -/
theorem getCurrentBranch_detached_counterexample :
    detachedRepo.head = none ∧
      getCurrentBranch (observe detachedRepo) = some "" ∧
      getCurrentBranch (observe detachedRepo) ≠ none := by
  exact ⟨rfl, by decide, by decide⟩

/-- C2 (amended): `getCurrentBranch` returns the name of the checked-out
branch; in a detached-head state it returns the empty string, and it
returns `null` exactly when the underlying query fails. -/
theorem getCurrentBranch_amended (r : Repo) (b : String) :
    (r.head = some b → validName b →
        getCurrentBranch (observe r) = some b) ∧
      (r.head = none → getCurrentBranch (observe r) = some "") ∧
      getCurrentBranch nonRepoState = none := by
  refine ⟨?_, ?_, rfl⟩
  · intro hb hv
    show Option.map jsTrim (observe r).showCurrentOut = some b
    have hcur : (observe r).showCurrentOut = some (b ++ "\n") := by
      show (some (match r.head with
        | some x => x ++ "\n"
        | none => "") : Option String) = _
      rw [hb]
    rw [hcur]
    show some (jsTrim (b ++ "\n")) = some b
    rw [jsTrim_append_newline_of_valid b hv]
  · intro hb
    show Option.map jsTrim (observe r).showCurrentOut = some ""
    have hcur : (observe r).showCurrentOut = some "" := by
      show (some (match r.head with
        | some x => x ++ "\n"
        | none => "") : Option String) = _
      rw [hb]
    rw [hcur]
    rfl

/-- C2 witness: the amended theorem applied to a repository checked out on
`wip` and to a detached repository. -/
theorem getCurrentBranch_amended_witness :
    getCurrentBranch (observe wipRepo) = some "wip" ∧
      getCurrentBranch (observe detachedRepo) = some "" :=
  ⟨(getCurrentBranch_amended wipRepo "wip").1 rfl (by decide),
   (getCurrentBranch_amended detachedRepo "x").2.1 rfl⟩

/-! ## Claim C3: protected-set invariants -/

/-- C3 (counterexample): in a detached-head repository the current branch
is the non-null empty string, yet it is not in the protected set; an
empty-string entry of `extraProtected` is likewise discarded
(`filter(Boolean)` removes all falsy values, not only `null`). -/
theorem protectedBranches_empty_counterexample :
    getCurrentBranch (observe detachedRepo) = some "" ∧
      "" ∉ protectedBranchesOf (observe detachedRepo) [] ∧
      "" ∉ protectedBranchesOf (observe detachedRepo) [""] := by
  exact ⟨by decide, by decide, by decide⟩

/-- C3 (amended): the protected set is `{defaultBranch, currentBranch} ∪
extraProtected` with null and empty-string entries discarded; the local
candidates are disjoint from it; the default branch always belongs to it;
and the current branch belongs to it whenever it is non-null and
nonempty. -/
theorem getBranchesToClean_protected_invariants (s : GitState)
    (protect : List String) (includeRemote : Bool) :
    (∀ x, x ∈ protectedBranchesOf s protect ↔
        (x ≠ "" ∧ (x = getDefaultBranch s ∨ getCurrentBranch s = some x ∨
          x ∈ protect))) ∧
      (∀ b ∈ (getBranchesToClean s protect includeRemote).localToClean,
        b ∉ protectedBranchesOf s protect) ∧
      getDefaultBranch s ∈ protectedBranchesOf s protect ∧
      (∀ c, getCurrentBranch s = some c → c ≠ "" →
        c ∈ protectedBranchesOf s protect) := by
  refine ⟨fun x => mem_protectedBranchesOf s protect x, ?_, ?_, ?_⟩
  · intro b hb
    have h2 := (List.mem_filter.1 hb).2
    simpa using h2
  · exact (mem_protectedBranchesOf s protect _).2
      ⟨getDefaultBranch_ne_empty s, Or.inl rfl⟩
  · intro c hc hne
    exact (mem_protectedBranchesOf s protect c).2 ⟨hne, Or.inr (Or.inl hc)⟩

/-- C3 witness: the amended invariants instantiated on a concrete
repository checked out on `wip` with local branches `main`, `wip`, `dev`
and no extra protection. -/
theorem getBranchesToClean_protected_invariants_witness :
    getDefaultBranch (observe wipRepo) ∈ protectedBranchesOf (observe wipRepo) [] ∧
      "wip" ∈ protectedBranchesOf (observe wipRepo) [] ∧
      "dev" ∉ protectedBranchesOf (observe wipRepo) [] := by
  have h := getBranchesToClean_protected_invariants (observe wipRepo) [] false
  exact ⟨h.2.2.1, h.2.2.2 "wip" (by decide) (by decide),
    h.2.1 "dev" (by decide)⟩

/-! ## Claim C4: merge-reachability test -/

/-- C4 (counterexample): on a path that is not a repository every query
fails and `isBranchMerged` returns `false` even for the default branch
itself, refuting "isMerged(defaultBranch) is always true". -/
theorem isBranchMerged_default_counterexample :
    getDefaultBranch nonRepoState = "main" ∧
      isBranchMerged (getDefaultBranch nonRepoState) nonRepoState = false := by
  exact ⟨by decide, by decide⟩

/-- C4 (amended): when the merged-listing query succeeds, `isBranchMerged
b` is true iff `b` is a local branch whose tip is reachable from the
default branch's tip; the default branch is merged into itself whenever it
is a local branch and the query succeeds; and any query failure yields
`false`. -/
theorem isBranchMerged_reachability (r : Repo) (x : String)
    (hv : ∀ b ∈ r.localBranches, validName b)
    (hres : r.resolvable (getDefaultBranch (observe r)) = true)
    (hx : x ≠ "")
    (hd : getDefaultBranch (observe r) ∈ r.localBranches)
    (hrefl : r.reachable (getDefaultBranch (observe r))
      (getDefaultBranch (observe r)) = true) :
    (isBranchMerged x (observe r) = true ↔
        x ∈ r.localBranches ∧
          r.reachable x (getDefaultBranch (observe r)) = true) ∧
      isBranchMerged (getDefaultBranch (observe r)) (observe r) = true ∧
      (∀ b s, s.branchMergedOut (getDefaultBranch s) = none →
        isBranchMerged b s = false) := by
  refine ⟨isBranchMerged_observe r x hv hres hx, ?_, ?_⟩
  · exact (isBranchMerged_observe r _ hv hres
      (getDefaultBranch_ne_empty (observe r))).2 ⟨hd, hrefl⟩
  · intro b s hnone
    unfold isBranchMerged
    rw [hnone]

/-- C4 witness: on a concrete repository, the default branch `main` is
merged into itself and the unmerged checked-out branch `wip` is
characterized by the reachability equivalence. -/
theorem isBranchMerged_reachability_witness :
    isBranchMerged (getDefaultBranch (observe wipRepo)) (observe wipRepo) = true ∧
      (isBranchMerged "wip" (observe wipRepo) = true ↔
        "wip" ∈ wipRepo.localBranches ∧
          wipRepo.reachable "wip" (getDefaultBranch (observe wipRepo)) = true) := by
  have h := isBranchMerged_reachability wipRepo "wip" (by decide) (by decide)
    (by decide) (by decide) (by decide)
  exact ⟨h.2.1, h.1⟩

/-! ## Claim C5: local deletion of unmerged branches -/

/-- C5 (counterexample): `wip` is an unmerged branch that is currently
checked out; even forced deletion fails — git refuses to delete the
checked-out branch — and the branch stays listed, refuting "forced
deleteLocal on every unmerged branch returns success == true and removes
it". -/
theorem deleteLocalBranch_checkedOut_counterexample :
    isBranchMerged "wip" (observe wipRepo) = false ∧
      (deleteLocalBranch "wip" wipRepo true).1.success = false ∧
      "wip" ∈ listLocalBranches
        (observe (deleteLocalBranch "wip" wipRepo true).2) := by
  exact ⟨by decide, by decide, by decide⟩

/-- C5 (amended): for every existing branch that is not merged into the
current checkout and is not itself the checked-out branch, safe deletion
returns `success == false` and leaves the branch listed, while forced
deletion returns `success == true` and removes it from the listing. -/
theorem deleteLocalBranch_unmerged (r : Repo) (b : String)
    (hmem : b ∈ r.localBranches)
    (hnd : r.localBranches.Nodup)
    (hv : ∀ x ∈ r.localBranches, validName x)
    (hcur : r.head ≠ some b)
    (hunm : ∀ h, r.head = some h → r.reachable b h = false) :
    (deleteLocalBranch b r false).1.success = false ∧
      (deleteLocalBranch b r false).2 = r ∧
      b ∈ listLocalBranches (observe (deleteLocalBranch b r false).2) ∧
      (deleteLocalBranch b r true).1.success = true ∧
      b ∉ listLocalBranches (observe (deleteLocalBranch b r true).2) := by
  have hc1 : r.localBranches.contains b = true := by simpa using hmem
  have hc2 : (r.head == some b) = false := by
    simpa using hcur
  have hmatch : (match r.head with
      | some h => r.reachable b h
      | none => false) = false := by
    cases hr : r.head with
    | none => rfl
    | some h => exact hunm h hr
  have hsafe : gitBranchDelete r b false =
      .error "error: the branch is not fully merged" := by
    unfold gitBranchDelete
    rw [hc1, hc2, hmatch]
    simp
  have hforce : gitBranchDelete r b true =
      .ok { r with localBranches := r.localBranches.erase b } := by
    unfold gitBranchDelete
    rw [hc1, hc2]
    simp
  have e1 : deleteLocalBranch b r false =
      ({ success := false,
         error := some "error: the branch is not fully merged" }, r) := by
    unfold deleteLocalBranch
    rw [hsafe]
  have e2 : deleteLocalBranch b r true =
      ({ success := true, error := none },
       { r with localBranches := r.localBranches.erase b }) := by
    unfold deleteLocalBranch
    rw [hforce]
  refine ⟨by rw [e1], by rw [e1], ?_, by rw [e2], ?_⟩
  · rw [e1]
    rw [listLocalBranches_observe r hv]
    exact hmem
  · rw [e2]
    have hverase : ∀ x ∈ r.localBranches.erase b, validName x :=
      fun x hx => hv x (List.mem_of_mem_erase hx)
    show b ∉ listLocalBranches (observe
      { r with localBranches := r.localBranches.erase b })
    rw [listLocalBranches_observe _ hverase]
    intro hb
    exact ((hnd.mem_erase_iff).1 hb).1 rfl

/-- C5 witness: on a concrete repository checked out on `wip`, the branch
`main` is not merged into `wip`; safe deletion fails and leaves it listed,
forced deletion succeeds and removes it. -/
theorem deleteLocalBranch_unmerged_witness :
    (deleteLocalBranch "main" wipRepo false).1.success = false ∧
      "main" ∈ listLocalBranches
        (observe (deleteLocalBranch "main" wipRepo false).2) ∧
      (deleteLocalBranch "main" wipRepo true).1.success = true ∧
      "main" ∉ listLocalBranches
        (observe (deleteLocalBranch "main" wipRepo true).2) := by
  have h := deleteLocalBranch_unmerged wipRepo "main" (by decide) (by decide)
    (by decide) (by decide) ?hu
  case hu =>
    intro x hx
    have hxx : ("wip" : String) = x :=
      Option.some.inj (show some "wip" = some x from hx)
    rw [← hxx]
    decide
  exact ⟨h.1, h.2.2.1, h.2.2.2.1, h.2.2.2.2⟩

/-! ## Claim C6: remote candidates matched by name only -/

/-- C6: with `includeRemote` true, the remote candidates are exactly the
listed remote refs whose branch name (remote prefix stripped) is not in
the protected set — membership depends on the name only, never on which
remote the ref belongs to. -/
theorem getBranchesToClean_remote_by_name (s : GitState)
    (protect : List String) (r : RemoteRef) :
    r ∈ (getBranchesToClean s protect true).remoteToClean ↔
      (r ∈ listRemoteBranches s ∧
        r.branch ∉ protectedBranchesOf s protect) := by
  show r ∈ (listRemoteBranches s).filter
    (fun q => !((protectedBranchesOf s protect).contains q.branch)) ↔ _
  constructor
  · intro h
    obtain ⟨h1, h2⟩ := List.mem_filter.1 h
    exact ⟨h1, by simpa using h2⟩
  · intro h
    obtain ⟨h1, h2⟩ := h
    exact List.mem_filter.2 ⟨h1, by simpa using h2⟩

/-! ## Claim C7: remote-branch listing and parsing -/

/-- C7 (counterexample): `origin/HEAD-fix` is a genuine remote branch, not
a symbolic HEAD pointer, yet `listRemoteBranches` drops it because the
entry contains `"HEAD"` as a substring; the claimed listing (excluding
only symbolic HEAD pointers) keeps it. -/
theorem listRemoteBranches_head_counterexample :
    listRemoteBranches headFixState =
        [{ remote := "origin", branch := "feature/x",
           fullName := "origin/feature/x" }] ∧
      listRemoteBranchesClaimed headFixState =
        [{ remote := "origin", branch := "HEAD-fix",
           fullName := "origin/HEAD-fix" },
         { remote := "origin", branch := "feature/x",
           fullName := "origin/feature/x" }] := by
  exact ⟨by decide, by decide⟩

/-- C7 (amended): `listRemoteBranches` returns every remote-tracking entry
except those containing `"HEAD"` as a substring (which covers symbolic
HEAD pointers but also any branch whose name contains `"HEAD"`), each
parsed by splitting on the first path separator, so a branch name that
itself contains separators is preserved intact after the remote prefix. -/
theorem listRemoteBranches_amended (s : GitState) (out : String)
    (hout : s.branchRemoteOut = some out) (remote branch : String)
    (hsl : '/' ∉ remote.data) :
    listRemoteBranches s =
        (((jsSplitChar '\n' out).map jsTrim).filter
          (fun b => !(b == "") && !(containsSub b "HEAD"))).map
          parseRemoteLine ∧
      parseRemoteLine (remote ++ "/" ++ branch) =
        { remote := remote, branch := branch,
          fullName := remote ++ "/" ++ branch } := by
  constructor
  · unfold listRemoteBranches
    rw [hout]
  · have hdata : (remote ++ "/" ++ branch).data =
        remote.data ++ '/' :: branch.data := by
      show (remote.data ++ "/".data) ++ branch.data = _
      simp
    have hsplit : splitCharList '/' (remote ++ "/" ++ branch).data =
        remote.data :: splitCharList '/' branch.data := by
      rw [hdata]
      exact splitCharList_append_sep '/' remote.data branch.data hsl
    have hjoin : joinSlash ((splitCharList '/' branch.data).map
        (fun g => (⟨g⟩ : String))) = branch := by
      unfold joinSlash
      rw [List.map_map]
      have hmk : (String.data ∘ fun g => (⟨g⟩ : String)) = id :=
        funext fun g => rfl
      rw [hmk, List.map_id, joinSepList_splitCharList]
    show ({ remote := ((splitCharList '/' (remote ++ "/" ++ branch).data).map
            (fun g => (⟨g⟩ : String))).headD ""
          , branch := joinSlash (((splitCharList '/'
              (remote ++ "/" ++ branch).data).map
            (fun g => (⟨g⟩ : String))).drop 1)
          , fullName := remote ++ "/" ++ branch } : RemoteRef) = _
    rw [hsplit]
    simp only [List.map_cons, List.headD_cons, List.drop_succ_cons,
      List.drop_zero]
    rw [hjoin]

/-- C7 witness: the amended listing applied to a concrete remote listing,
and the parsing of `origin/feature/x` preserving the separator inside the
branch name. -/
theorem listRemoteBranches_amended_witness :
    listRemoteBranches headFixState =
        (((jsSplitChar '\n' "origin/HEAD-fix\norigin/feature/x\n").map
          jsTrim).filter
          (fun b => !(b == "") && !(containsSub b "HEAD"))).map
          parseRemoteLine ∧
      parseRemoteLine ("origin" ++ "/" ++ "feature/x") =
        { remote := "origin", branch := "feature/x",
          fullName := "origin" ++ "/" ++ "feature/x" } :=
  listRemoteBranches_amended headFixState "origin/HEAD-fix\norigin/feature/x\n"
    rfl "origin" "feature/x" (by decide)

/-! ## Claim C8: error-propagation policy -/

/-- C8: each inspection function degrades to its empty/null/false/default
value when the underlying command fails, and both deletion functions
return a structured `{success, error?}` outcome — `error` present exactly
on failure — in every case. -/
theorem core_error_policy (s : GitState) (b remote : String) (r : Repo)
    (br : String) (force : Bool) :
    (s.revParseOk = false → isGitRepo s = false) ∧
      (s.symbolicRefOut = none → s.branchAllOut = none →
        getDefaultBranch s = "main") ∧
      (s.showCurrentOut = none → getCurrentBranch s = none) ∧
      (s.branchLocalOut = none → listLocalBranches s = []) ∧
      (s.branchRemoteOut = none → listRemoteBranches s = []) ∧
      (s.branchMergedOut (getDefaultBranch s) = none →
        isBranchMerged b s = false) ∧
      ((deleteLocalBranch br r force).1.success = true ∧
          (deleteLocalBranch br r force).1.error = none ∨
        (deleteLocalBranch br r force).1.success = false ∧
          ∃ e, (deleteLocalBranch br r force).1.error = some e) ∧
      ((deleteRemoteBranch remote b s).success = true ∧
          (deleteRemoteBranch remote b s).error = none ∨
        (deleteRemoteBranch remote b s).success = false ∧
          ∃ e, (deleteRemoteBranch remote b s).error = some e) := by
  refine ⟨fun h => h, ?_, ?_, ?_, ?_, ?_, ?_, ?_⟩
  · intro h1 h2
    unfold getDefaultBranch
    rw [h1]
    unfold defaultBranchFallback
    rw [h2]
  · intro h
    unfold getCurrentBranch
    rw [h]
    rfl
  · intro h
    unfold listLocalBranches
    rw [h]
  · intro h
    unfold listRemoteBranches
    rw [h]
  · intro h
    unfold isBranchMerged
    rw [h]
  · cases hdel : gitBranchDelete r br force with
    | ok r' =>
      left
      unfold deleteLocalBranch
      rw [hdel]
      exact ⟨rfl, rfl⟩
    | error e =>
      right
      unfold deleteLocalBranch
      rw [hdel]
      exact ⟨rfl, e, rfl⟩
  · cases hp : s.pushDeleteErr remote b with
    | none =>
      left
      unfold deleteRemoteBranch
      rw [hp]
      exact ⟨rfl, rfl⟩
    | some e =>
      right
      unfold deleteRemoteBranch
      rw [hp]
      exact ⟨rfl, e, rfl⟩

/-- C8 witness: the policy instantiated on the non-repository state (all
queries fail) and on a concrete forced deletion of the checked-out
branch. -/
theorem core_error_policy_witness :
    isGitRepo nonRepoState = false ∧
      getDefaultBranch nonRepoState = "main" ∧
      getCurrentBranch nonRepoState = none ∧
      listLocalBranches nonRepoState = [] ∧
      listRemoteBranches nonRepoState = [] ∧
      isBranchMerged "feature" nonRepoState = false ∧
      ((deleteLocalBranch "wip" wipRepo true).1.success = true ∧
          (deleteLocalBranch "wip" wipRepo true).1.error = none ∨
        (deleteLocalBranch "wip" wipRepo true).1.success = false ∧
          ∃ e, (deleteLocalBranch "wip" wipRepo true).1.error = some e) ∧
      ((deleteRemoteBranch "origin" "feature" nonRepoState).success = true ∧
          (deleteRemoteBranch "origin" "feature" nonRepoState).error = none ∨
        (deleteRemoteBranch "origin" "feature" nonRepoState).success = false ∧
          ∃ e, (deleteRemoteBranch "origin" "feature" nonRepoState).error =
            some e) := by
  have h := core_error_policy nonRepoState "feature" "origin" wipRepo "wip" true
  exact ⟨h.1 rfl, h.2.1 rfl rfl, h.2.2.1 rfl, h.2.2.2.1 rfl,
    h.2.2.2.2.1 rfl, h.2.2.2.2.2.1 rfl, h.2.2.2.2.2.2.1,
    h.2.2.2.2.2.2.2⟩

/-! ## Claim C9: local candidate ordering -/

/-- C9: the local candidates are exactly the protected-name-removing
filter of the local listing: an ordered sublist of `listLocalBranches`
(same relative order, no duplication or insertion), containing precisely
the unprotected listed names. -/
theorem getBranchesToClean_local_order (s : GitState) (protect : List String)
    (includeRemote : Bool) :
    (getBranchesToClean s protect includeRemote).localToClean =
        (listLocalBranches s).filter
          (fun b => !((protectedBranchesOf s protect).contains b)) ∧
      List.Sublist (getBranchesToClean s protect includeRemote).localToClean
        (listLocalBranches s) ∧
      (∀ b, b ∈ (getBranchesToClean s protect includeRemote).localToClean ↔
        (b ∈ listLocalBranches s ∧ b ∉ protectedBranchesOf s protect)) := by
  refine ⟨rfl, List.filter_sublist _, fun b => ?_⟩
  constructor
  · intro h
    obtain ⟨h1, h2⟩ := List.mem_filter.1 h
    exact ⟨h1, by simpa using h2⟩
  · intro h
    obtain ⟨h1, h2⟩ := h
    exact List.mem_filter.2 ⟨h1, by simpa using h2⟩

/-! ## Claim C10: planning outside a repository -/

/-- C10 (counterexample): on a path that is not a repository the plan is
empty, but an empty-string entry of the protect list is discarded by
`filter(Boolean)`, so the protected set is `{"main"}` rather than the
claimed `{"main"} ∪ extraProtected`. -/
theorem getBranchesToClean_nonRepo_counterexample :
    getBranchesToClean nonRepoState [""] true =
        { localToClean := [], remoteToClean := [] } ∧
      protectedBranchesOf nonRepoState [""] = ["main"] ∧
      "" ∉ protectedBranchesOf nonRepoState [""] := by
  exact ⟨by decide, by decide, by decide⟩

/-- C10 (amended): on a path that is not a repository every query fails,
nothing raises, both candidate lists are empty, and the protected set is
`{"main"}` (the default-branch fallback) together with the nonempty
entries of `extraProtected`. -/
theorem getBranchesToClean_nonRepo (protect : List String)
    (includeRemote : Bool) :
    (getBranchesToClean nonRepoState protect includeRemote).localToClean =
        [] ∧
      (getBranchesToClean nonRepoState protect includeRemote).remoteToClean =
        [] ∧
      getDefaultBranch nonRepoState = "main" ∧
      getCurrentBranch nonRepoState = none ∧
      (∀ x, x ∈ protectedBranchesOf nonRepoState protect ↔
        (x = "main" ∨ (x ∈ protect ∧ x ≠ ""))) := by
  refine ⟨rfl, ?_, rfl, rfl, ?_⟩
  · cases includeRemote <;> rfl
  · intro x
    rw [mem_protectedBranchesOf]
    constructor
    · rintro ⟨hne, h1 | h1 | h1⟩
      · exact Or.inl h1
      · exact absurd (show (none : Option String) = some x from h1)
          (by simp)
      · exact Or.inr ⟨h1, hne⟩
    · rintro (h1 | h1)
      · refine ⟨by rw [h1]; decide, Or.inl h1⟩
      · obtain ⟨hmem, hne⟩ := h1
        exact ⟨hne, Or.inr (Or.inr hmem)⟩

end BranchManager
